import Mathlib

/-!
# Fixed-point arithmetic of `FPGA-NDRange/fixedptc.h`

A shallow embedding of the fixed-point header `fixedptc.h`.  A fixed-point
number is a signed two's-complement integer of `W` bits (`fixedpt`), read as
`raw / 2^F`; intermediate results of multiplication and division live in a
signed type of `2 * W` bits (`fixedptd`).

Machine integers are modelled as mathematical integers (`Int`) together with an
explicit reduction `wrap n` wherever the C code converts to, or computes in, a
signed type of `n` bits.  The configuration `(W, F)` that the header fixes with
the preprocessor is passed to every operation as two `Nat` parameters.
-/

namespace Fixedptc

/-! ## Machine integers -/

/-- Conversion of an integer to the signed two's-complement type of `n` bits:
the value is reduced modulo `2^n` into `[-2^(n-1), 2^(n-1))`. -/
def wrap (n : Nat) (z : Int) : Int :=
  let r := z % 2 ^ n
  if r < 2 ^ (n - 1) then r else r - 2 ^ n

/-- The values of the signed two's-complement type of `n` bits. -/
def InRange (n : Nat) (z : Int) : Prop :=
  -(2 ^ (n - 1)) ≤ z ∧ z < 2 ^ (n - 1)

instance (n : Nat) (z : Int) : Decidable (InRange n z) := by
  unfold InRange
  exact inferInstance

/-- `E1 << E2` evaluated in a signed type of `n` bits: the bits shifted out at
the top are lost. -/
def shl (n : Nat) (x : Int) (s : Nat) : Int :=
  wrap n (x * 2 ^ s)

/-- `E1 >> E2` on a signed operand: the arithmetic right shift. -/
def sar (x : Int) (s : Nat) : Int :=
  x >>> s

/-- Conversion of a floating constant to an integer type discards the
fractional part (truncation toward zero). -/
def truncQ (q : ℚ) : Int :=
  if 0 ≤ q then ⌊q⌋ else ⌈q⌉

/-- Width of the type `int`, to which C promotes narrower operands before
arithmetic (`typedef int fixedpt` is the 32-bit configuration). -/
def intBits : Nat := 32

/-- Width of the type in which an operand of `n` bits is computed on after the
integer promotions. -/
def promote (n : Nat) : Nat :=
  max n intBits

/-! ## Configuration -/

/-- `#ifndef FIXEDPT_BITS` / `#define FIXEDPT_BITS 32`: the total width, unless
the including file has defined it. -/
def FIXEDPT_BITS (override : Option Nat) : Nat :=
  override.getD 32

/-- `#ifndef FIXEDPT_WBITS` / `#define FIXEDPT_WBITS 24`: the number of whole
bits, unless the including file has defined it. -/
def FIXEDPT_WBITS (override : Option Nat) : Nat :=
  override.getD 24

/-- `#define FIXEDPT_FBITS (FIXEDPT_BITS - FIXEDPT_WBITS)`: the number of
fractional bits. -/
def FIXEDPT_FBITS (bits wbits : Nat) : Nat :=
  bits - wbits

/-- Width of `fixedptd`, the double-width type: `long` for `int`, `__int128_t`
for `int64_t`, `int` for `short`. -/
def dbits (W : Nat) : Nat :=
  2 * W

/-- `#define FIXEDPT_FMASK (((fixedpt)1 << FIXEDPT_FBITS) - 1)`. -/
def FIXEDPT_FMASK (W F : Nat) : Int :=
  wrap (promote W) (shl (promote W) (wrap W 1) F - 1)

/-- `#define FIXEDPT_ONE ((fixedpt)((fixedpt)1 << FIXEDPT_FBITS))`. -/
def FIXEDPT_ONE (W F : Nat) : Int :=
  wrap W (shl (promote W) (wrap W 1) F)

/-! ## Conversions and arithmetic -/

/-- `#define fixedpt_rconst(R) ((fixedpt)((R) * (((fixedptd)1 << FIXEDPT_FBITS)
+ ((R) >= 0 ? 0.5 : -0.5))))`.  The constant `R` is taken as an exact rational;
the header evaluates the same expression in double precision. -/
def fixedpt_rconst (W F : Nat) (R : ℚ) : Int :=
  wrap W (truncQ (R * (((shl (dbits W) (wrap (dbits W) 1) F : Int) : ℚ)
    + (if R ≥ 0 then 1 / 2 else -(1 / 2)))))

/-- `#define fixedpt_fromint(I) ((fixedptd)(I) << FIXEDPT_FBITS)`: the result
has the type `fixedptd`. -/
def fixedpt_fromint (W F : Nat) (I : Int) : Int :=
  shl (dbits W) (wrap (dbits W) I) F

/-- `#define fixedpt_toint(F) ((F) >> FIXEDPT_FBITS)`. -/
def fixedpt_toint (F : Nat) (x : Int) : Int :=
  sar x F

/-- `#define fixedpt_add(A,B) ((A) + (B))`, the sum being formed in a signed
type of `n` bits (the common type of the two operands). -/
def fixedpt_add (n : Nat) (A B : Int) : Int :=
  wrap n (A + B)

/-- `#define fixedpt_sub(A,B) ((A) - (B))`, the difference being formed in a
signed type of `n` bits (the common type of the two operands). -/
def fixedpt_sub (n : Nat) (A B : Int) : Int :=
  wrap n (A - B)

/-- `fixedpt_mul`: `return (((fixedptd)A * (fixedptd)B) >> FIXEDPT_FBITS);`
with the result converted to the return type `fixedpt`. -/
def fixedpt_mul (W F : Nat) (A B : Int) : Int :=
  wrap W (sar (wrap (dbits W) (wrap (dbits W) A * wrap (dbits W) B)) F)

/-- `fixedpt_div`: `return (((fixedptd)A << FIXEDPT_FBITS) / (fixedptd)B);`
with the result converted to the return type `fixedpt`.  Integer division in C
truncates toward zero; a zero divisor has no defined result (`none`). -/
def fixedpt_div (W F : Nat) (A B : Int) : Option Int :=
  if wrap (dbits W) B = 0 then none
  else some (wrap W (wrap (dbits W)
    (Int.tdiv (shl (dbits W) (wrap (dbits W) A) F) (wrap (dbits W) B))))

/-- `#define FIXEDPT_PI fixedpt_rconst(3.14159265358979323846)`. -/
def FIXEDPT_PI (W F : Nat) : Int :=
  fixedpt_rconst W F (314159265358979323846 / 100000000000000000000)

/-- Conversion of an integer to the unsigned type of `n` bits (`fixedptu` for
`n = W`): the value is reduced modulo `2^n` into `[0, 2^n)`. -/
def uwrap (n : Nat) (z : Int) : Int :=
  z % 2 ^ n

/-- `#define fixedpt_xmul(A,B) ((fixedpt)(((fixedptd)(A) * (fixedptd)(B)) >>
FIXEDPT_FBITS))`. -/
def fixedpt_xmul (W F : Nat) (A B : Int) : Int :=
  wrap W (sar (wrap (dbits W) (wrap (dbits W) A * wrap (dbits W) B)) F)

/-- `#define fixedpt_xdiv(A,B) ((fixedpt)(((fixedptd)(A) << FIXEDPT_FBITS) /
(fixedptd)(B)))`; a zero divisor has no defined result (`none`). -/
def fixedpt_xdiv (W F : Nat) (A B : Int) : Option Int :=
  if wrap (dbits W) B = 0 then none
  else some (wrap W (wrap (dbits W)
    (Int.tdiv (shl (dbits W) (wrap (dbits W) A) F) (wrap (dbits W) B))))

/-- `#define fixedpt_fracpart(A) ((fixedpt)(A) & FIXEDPT_FMASK)`. -/
def fixedpt_fracpart (W F : Nat) (A : Int) : Int :=
  Int.land (wrap W A) (FIXEDPT_FMASK W F)

/-- `#define FIXEDPT_ONE_HALF (FIXEDPT_ONE >> 1)`. -/
def FIXEDPT_ONE_HALF (W F : Nat) : Int :=
  sar (FIXEDPT_ONE W F) 1

/-- `#define FIXEDPT_TWO (FIXEDPT_ONE + FIXEDPT_ONE)`. -/
def FIXEDPT_TWO (W F : Nat) : Int :=
  wrap (promote W) (FIXEDPT_ONE W F + FIXEDPT_ONE W F)

/-- `#define FIXEDPT_FIVE (FIXEDPT_ONE + FIXEDPT_ONE + FIXEDPT_ONE + FIXEDPT_ONE
+ FIXEDPT_ONE)`, the sums associating to the left. -/
def FIXEDPT_FIVE (W F : Nat) : Int :=
  wrap (promote W) (wrap (promote W) (wrap (promote W) (wrap (promote W)
    (FIXEDPT_ONE W F + FIXEDPT_ONE W F) + FIXEDPT_ONE W F) + FIXEDPT_ONE W F)
    + FIXEDPT_ONE W F)

/-- `#define FIXEDPT_1_5 ((fixedpt)((fixedpt)3 << (FIXEDPT_FBITS - 1) ))`. -/
def FIXEDPT_1_5 (W F : Nat) : Int :=
  wrap W (shl (promote W) (wrap W 3) (F - 1))

/-- `#define FIXEDPT_1_8 fixedpt_rconst(1.8)`. -/
def FIXEDPT_1_8 (W F : Nat) : Int :=
  fixedpt_rconst W F (18 / 10)

/-- `#define FIXEDPT_MINUS_1_8 fixedpt_rconst(-1.8)`. -/
def FIXEDPT_MINUS_1_8 (W F : Nat) : Int :=
  fixedpt_rconst W F (-(18 / 10))

/-- `#define FIXEDPT_MINUS_5 fixedpt_rconst(-5)`. -/
def FIXEDPT_MINUS_5 (W F : Nat) : Int :=
  fixedpt_rconst W F (-5)

/-- `#define FIXEDPT_1024 ((fixedpt)((fixedpt)1 << (FIXEDPT_FBITS+10) ))`. -/
def FIXEDPT_1024 (W F : Nat) : Int :=
  wrap W (shl (promote W) (wrap W 1) (F + 10))

/-- `#define FIXEDPT_QUARTER (FIXEDPT_ONE >> 2)`. -/
def FIXEDPT_QUARTER (W F : Nat) : Int :=
  sar (FIXEDPT_ONE W F) 2

/-- `#define FIXEDPT_MAX ((fixedpt)((fixedptu)(-1) >> 1) )`. -/
def FIXEDPT_MAX (W : Nat) : Int :=
  wrap W (sar (uwrap W (-1)) 1)

/-! ## Reference definitions, following the specification's wording -/

/-- Reference rounding of the specification: the constant is scaled by `2^F`
and `0.5` is added (subtracted for a negative constant) before truncation. -/
def rconst_spec (F : Nat) (r : ℚ) : Int :=
  if r ≥ 0 then truncQ (r * 2 ^ F + 1 / 2) else truncQ (r * 2 ^ F - 1 / 2)

/-! ## Basic facts about `wrap` -/

theorem two_pow_pred (n : Nat) (hn : 0 < n) : (2 : Int) ^ n = 2 * 2 ^ (n - 1) := by
  obtain ⟨k, rfl⟩ : ∃ k, n = k + 1 := ⟨n - 1, by omega⟩
  simp [pow_succ, mul_comm]

theorem wrap_eq_self (n : Nat) (z : Int) (hn : 0 < n) (hz : InRange n z) :
    wrap n z = z := by
  unfold wrap InRange at *
  have h2 := two_pow_pred n hn
  have hp : (0 : Int) < 2 ^ (n - 1) := by positivity
  generalize (2 : Int) ^ (n - 1) = h at *
  rw [h2]
  simp only
  by_cases hz0 : 0 ≤ z
  · have : z % (2 * h) = z := Int.emod_eq_of_lt hz0 (by omega)
    rw [this]; simp [hz.2]
  · have : z % (2 * h) = z + 2 * h := by
      have e : (z + 2 * h) % (2 * h) = z % (2 * h) := Int.add_emod_self
      rw [← e]
      exact Int.emod_eq_of_lt (show 0 ≤ z + 2 * h by omega) (show z + 2 * h < 2 * h by omega)
    rw [this]
    rw [if_neg (show ¬ (z + 2 * h < h) by omega)]; omega

theorem wrap_inRange (n : Nat) (z : Int) (hn : 0 < n) : InRange n (wrap n z) := by
  unfold wrap InRange
  have h2 := two_pow_pred n hn
  have hp : (0 : Int) < 2 ^ (n - 1) := by positivity
  generalize (2 : Int) ^ (n - 1) = h at *
  rw [h2]
  have h0 := Int.emod_nonneg z (show (2 * h : Int) ≠ 0 by omega)
  have h1 := Int.emod_lt_of_pos z (show (0 : Int) < 2 * h by omega)
  simp only
  split_ifs <;> constructor <;> omega

theorem wrap_emod (n : Nat) (z : Int) : wrap n z % 2 ^ n = z % 2 ^ n := by
  unfold wrap
  simp only
  split_ifs
  · exact Int.emod_emod_of_dvd z (dvd_refl _)
  · rw [Int.sub_emod, Int.emod_self, sub_zero, Int.emod_emod, Int.emod_emod]

theorem wrap_congr (n : Nat) (x y : Int) (h : x % 2 ^ n = y % 2 ^ n) :
    wrap n x = wrap n y := by
  unfold wrap
  rw [h]

theorem InRange.mono {m n : Nat} {z : Int} (hm : 0 < m) (hmn : m ≤ n)
    (hz : InRange m z) : InRange n z := by
  unfold InRange at *
  have : (2 : Int) ^ (m - 1) ≤ 2 ^ (n - 1) :=
    pow_le_pow_right₀ (by norm_num) (by omega)
  constructor <;> omega

theorem wrap_wrap_of_le (m n : Nat) (z : Int) (hmn : m ≤ n) :
    wrap m (wrap n z) = wrap m z := by
  apply wrap_congr
  have hd : (2 : Int) ^ m ∣ 2 ^ n := pow_dvd_pow 2 hmn
  rw [← Int.emod_emod_of_dvd (wrap n z) hd, wrap_emod, Int.emod_emod_of_dvd z hd]

theorem sar_eq_ediv (x : Int) (s : Nat) : sar x s = x / 2 ^ s := by
  unfold sar
  rw [Int.shiftRight_eq_div_pow]
  norm_cast

theorem floor_div_two_pow (z : Int) (s : Nat) : ⌊(z : ℚ) / 2 ^ s⌋ = z / 2 ^ s := by
  have h := Rat.floor_intCast_div_natCast z (2 ^ s)
  push_cast at h
  exact h

theorem two_pow_dbits_pred (W : Nat) (hW : 0 < W) :
    (2 : Int) ^ (dbits W - 1) = 2 * (2 ^ (W - 1) * 2 ^ (W - 1)) := by
  have e : dbits W - 1 = (W - 1) + (W - 1) + 1 := by unfold dbits; omega
  rw [e, pow_succ, pow_add]
  ring

theorem mul_bound (h a b : Int) (hp : 0 < h) (h1 : |a| ≤ h) (h2 : |b| ≤ h) :
    -(2 * (h * h)) ≤ a * b ∧ a * b < 2 * (h * h) := by
  have h3 : |a * b| ≤ h * h := by
    rw [abs_mul]
    exact mul_le_mul h1 h2 (abs_nonneg b) (by omega)
  have h4 := abs_le.mp h3
  have h5 : 0 < h * h := by positivity
  constructor <;> omega

theorem mul_inRange (W : Nat) (a b : Int) (hW : 0 < W) (ha : InRange W a)
    (hb : InRange W b) : InRange (dbits W) (a * b) := by
  unfold InRange at *
  rw [two_pow_dbits_pred W hW]
  have hp : (0 : Int) < 2 ^ (W - 1) := by positivity
  generalize (2 : Int) ^ (W - 1) = h at *
  exact mul_bound h a b hp (abs_le.mpr ⟨ha.1, by omega⟩) (abs_le.mpr ⟨hb.1, by omega⟩)

theorem mul_two_pow_inRange (W F : Nat) (a : Int) (hW : 0 < W) (hF : F < W)
    (ha : InRange W a) : InRange (dbits W) (a * 2 ^ F) := by
  unfold InRange at *
  rw [two_pow_dbits_pred W hW]
  have hp : (0 : Int) < 2 ^ (W - 1) := by positivity
  have hF1 : (2 : Int) ^ F ≤ 2 ^ (W - 1) := pow_le_pow_right₀ (by norm_num) (by omega)
  have hF0 : (0 : Int) < 2 ^ F := by positivity
  generalize (2 : Int) ^ (W - 1) = h at *
  generalize (2 : Int) ^ F = p at *
  exact mul_bound h a p hp (abs_le.mpr ⟨ha.1, by omega⟩) (abs_le.mpr ⟨by omega, hF1⟩)

theorem inRange_dbits (W : Nat) (a : Int) (hW : 0 < W) (ha : InRange W a) :
    InRange (dbits W) a :=
  InRange.mono hW (by unfold dbits; omega) ha

theorem wrap_dbits_eq_self (W : Nat) (a : Int) (hW : 0 < W) (ha : InRange W a) :
    wrap (dbits W) a = a :=
  wrap_eq_self (dbits W) a (by unfold dbits; omega) (inRange_dbits W a hW ha)

theorem shl_dbits_eq (W F : Nat) (a : Int) (hW : 0 < W) (hF : F < W)
    (ha : InRange W a) : shl (dbits W) (wrap (dbits W) a) F = a * 2 ^ F := by
  unfold shl
  rw [wrap_dbits_eq_self W a hW ha]
  exact wrap_eq_self (dbits W) _ (by unfold dbits; omega) (mul_two_pow_inRange W F a hW hF ha)

/-! ## Truncation toward zero -/

theorem floor_intCast_div (a b : Int) (hb : 0 < b) : ⌊(a : ℚ) / b⌋ = a / b := by
  obtain ⟨n, rfl⟩ : ∃ n : Nat, b = n := ⟨b.toNat, by omega⟩
  exact_mod_cast Rat.floor_intCast_div_natCast a n

theorem tdiv_eq_truncQ_pos (a b : Int) (hb : 0 < b) :
    Int.tdiv a b = truncQ ((a : ℚ) / b) := by
  have hbq : (0 : ℚ) < b := by exact_mod_cast hb
  unfold truncQ
  by_cases ha : 0 ≤ a
  · have hq : (0 : ℚ) ≤ (a : ℚ) / b := div_nonneg (by exact_mod_cast ha) hbq.le
    rw [if_pos hq, floor_intCast_div a b hb, Int.tdiv_eq_ediv ha hb.le]
  · have haq : (a : ℚ) < 0 := by exact_mod_cast (not_le.mp ha)
    have hq : ¬ (0 : ℚ) ≤ (a : ℚ) / b := not_le.mpr (div_neg_of_neg_of_pos haq hbq)
    have e : Int.tdiv a b = -Int.tdiv (-a) b := by rw [Int.neg_tdiv, neg_neg]
    rw [if_neg hq, e, Int.tdiv_eq_ediv (by omega) hb.le, ← floor_intCast_div (-a) b hb]
    rw [← Int.ceil_neg]
    congr 1
    push_cast
    ring

/-- C's integer division is the exact quotient with its fractional part
discarded. -/
theorem tdiv_eq_truncQ (a b : Int) (hb : b ≠ 0) :
    Int.tdiv a b = truncQ ((a : ℚ) / b) := by
  rcases lt_or_gt_of_ne hb with h | h
  · have e : Int.tdiv a b = Int.tdiv (-a) (-b) := by
      rw [Int.tdiv_neg, Int.neg_tdiv, neg_neg]
    rw [e, tdiv_eq_truncQ_pos (-a) (-b) (by omega)]
    congr 1
    push_cast
    rw [neg_div_neg_eq]
  · exact tdiv_eq_truncQ_pos a b h

theorem truncQ_eq_of_nonneg (q : ℚ) (z : Int) (h0 : 0 ≤ q) (h1 : (z : ℚ) ≤ q)
    (h2 : q < z + 1) : truncQ q = z := by
  unfold truncQ
  rw [if_pos h0]
  exact Int.floor_eq_iff.mpr ⟨h1, h2⟩

theorem truncQ_eq_of_neg (q : ℚ) (z : Int) (h0 : q < 0) (h1 : (z : ℚ) - 1 < q)
    (h2 : q ≤ z) : truncQ q = z := by
  unfold truncQ
  rw [if_neg (not_le.mpr h0)]
  exact Int.ceil_eq_iff.mpr ⟨h1, h2⟩

/-! ## Evaluation of `fixedpt_rconst` -/

theorem fixedpt_rconst_eq (W F : Nat) (R : ℚ) (s : Int)
    (hs : shl (dbits W) (wrap (dbits W) 1) F = s) :
    fixedpt_rconst W F R
      = wrap W (truncQ (R * ((s : ℚ) + (if R ≥ 0 then 1 / 2 else -(1 / 2))))) := by
  unfold fixedpt_rconst
  rw [hs]

theorem fixedpt_rconst_three_halves : fixedpt_rconst 32 8 (3 / 2) = 384 := by
  rw [fixedpt_rconst_eq 32 8 (3 / 2) 256 (by decide)]
  have h : truncQ ((3 / 2 : ℚ) * (((256 : Int) : ℚ)
      + (if (3 / 2 : ℚ) ≥ 0 then 1 / 2 else -(1 / 2)))) = 384 :=
    truncQ_eq_of_nonneg _ _ (by norm_num) (by norm_num) (by norm_num)
  rw [h]
  decide

/-! ## Multiplication and division without the machine types -/

theorem fixedpt_mul_eq (W F : Nat) (a b : Int) (hW : 0 < W) (ha : InRange W a)
    (hb : InRange W b) : fixedpt_mul W F a b = wrap W (a * b / 2 ^ F) := by
  unfold fixedpt_mul
  rw [wrap_dbits_eq_self W a hW ha, wrap_dbits_eq_self W b hW hb,
    wrap_eq_self (dbits W) _ (by unfold dbits; omega) (mul_inRange W a b hW ha hb),
    sar_eq_ediv]

theorem fixedpt_div_eq (W F : Nat) (a b : Int) (hW : 0 < W) (hF : F < W)
    (ha : InRange W a) (hb : InRange W b) (hb0 : b ≠ 0) :
    fixedpt_div W F a b = some (wrap W (Int.tdiv (a * 2 ^ F) b)) := by
  unfold fixedpt_div
  rw [wrap_dbits_eq_self W b hW hb, if_neg hb0, shl_dbits_eq W F a hW hF ha,
    wrap_wrap_of_le W (dbits W) _ (by unfold dbits; omega)]

/-! ## Multiplication and division against their reference definitions -/

/-- C1: for every `W`-bit signed `a` and `b`, `fixedpt_mul(a,b)` is
`floor(a*b / 2^F)` reduced to `W` bits, and the product formed in the
`2W`-bit type is the exact product `a*b` (it is in range there).  In the
configuration `W = 32`, `F = 8`, `fixedpt_mul(fixedpt_fromint(2),
fixedpt_rconst(1.5))` is `768`, which is also `fixedpt_fromint(3)`. -/
theorem C1_mul_reference (W F : Nat) (a b : Int) (hW : 0 < W)
    (ha : InRange W a) (hb : InRange W b) :
    fixedpt_mul W F a b = wrap W ⌊((a * b : Int) : ℚ) / 2 ^ F⌋
    ∧ wrap (dbits W) (wrap (dbits W) a * wrap (dbits W) b) = a * b
    ∧ InRange (dbits W) (a * b)
    ∧ fixedpt_mul 32 8 (fixedpt_fromint 32 8 2) (fixedpt_rconst 32 8 (3 / 2)) = 768
    ∧ fixedpt_fromint 32 8 3 = 768 := by
  have hab := mul_inRange W a b hW ha hb
  have hprod : wrap (dbits W) (wrap (dbits W) a * wrap (dbits W) b) = a * b := by
    rw [wrap_dbits_eq_self W a hW ha, wrap_dbits_eq_self W b hW hb]
    exact wrap_eq_self (dbits W) _ (by unfold dbits; omega) hab
  refine ⟨?_, hprod, hab, ?_, by decide⟩
  · rw [fixedpt_mul_eq W F a b hW ha hb, floor_div_two_pow]
  · rw [fixedpt_rconst_three_halves]
    decide

/-- C1 at `W = 32`, `F = 8`, `a = 512` (2.0) and `b = 384` (1.5). -/
theorem C1_mul_reference_witness :
    InRange 32 512 ∧ InRange 32 384
    ∧ fixedpt_mul 32 8 512 384 = wrap 32 ⌊(((512 : Int) * 384 : Int) : ℚ) / 2 ^ 8⌋ :=
  ⟨by decide, by decide, (C1_mul_reference 32 8 512 384 (by decide) (by decide) (by decide)).1⟩

/-- C2: for every `W`-bit signed `a` and every nonzero `W`-bit signed `b`,
`fixedpt_div(a,b)` returns the quotient of `a * 2^F` by `b`, truncated toward
zero and reduced to `W` bits, and the shifted dividend formed in the `2W`-bit
type is exactly `a * 2^F`.  In the configuration `W = 32`, `F = 8`,
`fixedpt_div(fixedpt_fromint(7), fixedpt_fromint(2))` is `896` and
`fixedpt_div(fixedpt_fromint(-7), fixedpt_fromint(2))` is `-896`. -/
theorem C2_div_reference (W F : Nat) (a b : Int) (hW : 0 < W) (hF : F < W)
    (ha : InRange W a) (hb : InRange W b) (hb0 : b ≠ 0) :
    fixedpt_div W F a b = some (wrap W (truncQ (((a * 2 ^ F : Int) : ℚ) / (b : ℚ))))
    ∧ fixedpt_div W F a b = some (wrap W (Int.tdiv (a * 2 ^ F) b))
    ∧ shl (dbits W) (wrap (dbits W) a) F = a * 2 ^ F
    ∧ InRange (dbits W) (a * 2 ^ F)
    ∧ fixedpt_div 32 8 (fixedpt_fromint 32 8 7) (fixedpt_fromint 32 8 2) = some 896
    ∧ fixedpt_div 32 8 (fixedpt_fromint 32 8 (-7)) (fixedpt_fromint 32 8 2) = some (-896) := by
  have hshl := shl_dbits_eq W F a hW hF ha
  have hdiv := fixedpt_div_eq W F a b hW hF ha hb hb0
  refine ⟨?_, hdiv, hshl, mul_two_pow_inRange W F a hW hF ha, by decide, by decide⟩
  rw [hdiv, tdiv_eq_truncQ _ b hb0]

/-- C2 at `W = 32`, `F = 8`, `a = -1792` (-7.0) and `b = 512` (2.0). -/
theorem C2_div_reference_witness :
    InRange 32 (-1792) ∧ InRange 32 512 ∧ (512 : Int) ≠ 0
    ∧ fixedpt_div 32 8 (-1792) 512 = some (wrap 32 (Int.tdiv (-1792 * 2 ^ 8) 512)) :=
  ⟨by decide, by decide, by decide,
    (C2_div_reference 32 8 (-1792) 512 (by decide) (by decide) (by decide) (by decide)
      (by decide)).2.1⟩

/-! ## Construction from a real constant -/

/-- C3, evaluated where the code departs from the claim: the macro multiplies
the constant by `2^F + 0.5` (by `2^F - 0.5` for a negative constant) instead of
adding `0.5` to the scaled constant.  At `W = 32`, `F = 8` the constant `-5`
(the header's own `FIXEDPT_MINUS_5`) becomes `-1277` where rounding to nearest
gives `-1280`, and the constant `3` becomes `769` where rounding to nearest
gives `768`; both results are more than `1/2` away from the scaled constant. -/
theorem C3_rconst_failing_input :
    fixedpt_rconst 32 8 (-5) = -1277 ∧ rconst_spec 8 (-5) = -1280
    ∧ ¬ (|((fixedpt_rconst 32 8 (-5) : Int) : ℚ) - (-5) * 2 ^ 8| ≤ 1 / 2)
    ∧ fixedpt_rconst 32 8 3 = 769 ∧ rconst_spec 8 3 = 768
    ∧ ¬ (|((fixedpt_rconst 32 8 3 : Int) : ℚ) - 3 * 2 ^ 8| ≤ 1 / 2) := by
  have h5 : fixedpt_rconst 32 8 (-5) = -1277 := by
    rw [fixedpt_rconst_eq 32 8 (-5) 256 (by decide)]
    have h : truncQ ((-5 : ℚ) * (((256 : Int) : ℚ)
        + (if (-5 : ℚ) ≥ 0 then 1 / 2 else -(1 / 2)))) = -1277 :=
      truncQ_eq_of_neg _ _ (by norm_num) (by norm_num) (by norm_num)
    rw [h]
    decide
  have h3 : fixedpt_rconst 32 8 3 = 769 := by
    rw [fixedpt_rconst_eq 32 8 3 256 (by decide)]
    have h : truncQ ((3 : ℚ) * (((256 : Int) : ℚ)
        + (if (3 : ℚ) ≥ 0 then 1 / 2 else -(1 / 2)))) = 769 :=
      truncQ_eq_of_nonneg _ _ (by norm_num) (by norm_num) (by norm_num)
    rw [h]
    decide
  refine ⟨h5, ?_, ?_, h3, ?_, ?_⟩
  · unfold rconst_spec
    rw [if_neg (by norm_num)]
    exact truncQ_eq_of_neg _ _ (by norm_num) (by norm_num) (by norm_num)
  · rw [h5]
    norm_num [abs_le]
  · unfold rconst_spec
    rw [if_pos (by norm_num)]
    exact truncQ_eq_of_nonneg _ _ (by norm_num) (by norm_num) (by norm_num)
  · rw [h3]
    norm_num [abs_le]

/-- C4, evaluated where the code departs from the claim: at `W = 32`, `F = 8`
the macro gives `FIXEDPT_PI` the raw value `805` (the truncation of
`pi * 256.5 = 805.81...`), whereas the scaled constant `pi * 256 = 804.24...`
rounds to `804`. -/
theorem C4_pi_failing_input :
    FIXEDPT_PI 32 8 = 805
    ∧ rconst_spec 8 (314159265358979323846 / 100000000000000000000) = 804 := by
  constructor
  · unfold FIXEDPT_PI
    rw [fixedpt_rconst_eq 32 8 _ 256 (by decide)]
    have h : truncQ ((314159265358979323846 / 100000000000000000000 : ℚ)
        * (((256 : Int) : ℚ) + (if (314159265358979323846 / 100000000000000000000 : ℚ) ≥ 0
            then 1 / 2 else -(1 / 2)))) = 805 :=
      truncQ_eq_of_nonneg _ _ (by norm_num) (by norm_num) (by norm_num)
    rw [h]
    decide
  · unfold rconst_spec
    rw [if_pos (by norm_num)]
    exact truncQ_eq_of_nonneg _ _ (by norm_num) (by norm_num) (by norm_num)

/-! ## Default configuration -/

/-- C5 as stated fails: with neither `FIXEDPT_BITS` nor `FIXEDPT_WBITS`
overridden, the number of fractional bits is not `24`, `FIXEDPT_ONE` is not
`2^24` and `FIXEDPT_FMASK` is not `2^24 - 1`. -/
theorem C5_default_configuration_counterexample :
    FIXEDPT_FBITS (FIXEDPT_BITS none) (FIXEDPT_WBITS none) ≠ 24
    ∧ FIXEDPT_BITS none - FIXEDPT_FBITS (FIXEDPT_BITS none) (FIXEDPT_WBITS none) ≠ 8
    ∧ FIXEDPT_ONE (FIXEDPT_BITS none)
        (FIXEDPT_FBITS (FIXEDPT_BITS none) (FIXEDPT_WBITS none)) ≠ 2 ^ 24
    ∧ FIXEDPT_FMASK (FIXEDPT_BITS none)
        (FIXEDPT_FBITS (FIXEDPT_BITS none) (FIXEDPT_WBITS none)) ≠ 2 ^ 24 - 1 := by
  decide

/-- C5, amended: with neither `FIXEDPT_BITS` nor `FIXEDPT_WBITS` overridden,
the total width is `32`, the number of whole bits `FIXEDPT_WBITS` is `24` and
the number of fractional bits `FIXEDPT_FBITS` is `32 - 24 = 8` (the 24.8
format), so `FIXEDPT_ONE` has raw value `2^8` and `FIXEDPT_FMASK` is
`2^8 - 1`. -/
theorem C5_default_configuration :
    FIXEDPT_BITS none = 32
    ∧ FIXEDPT_WBITS none = 24
    ∧ FIXEDPT_FBITS (FIXEDPT_BITS none) (FIXEDPT_WBITS none) = 8
    ∧ FIXEDPT_BITS none - FIXEDPT_FBITS (FIXEDPT_BITS none) (FIXEDPT_WBITS none) = 24
    ∧ FIXEDPT_ONE (FIXEDPT_BITS none)
        (FIXEDPT_FBITS (FIXEDPT_BITS none) (FIXEDPT_WBITS none)) = 2 ^ 8
    ∧ FIXEDPT_FMASK (FIXEDPT_BITS none)
        (FIXEDPT_FBITS (FIXEDPT_BITS none) (FIXEDPT_WBITS none)) = 2 ^ 8 - 1 := by
  decide

/-! ## Conversion between integers and fixed-point values -/

theorem abs_lt_two_pow_scaled (W F : Nat) (i : Int) (hF : F < W)
    (hi : |i| < 2 ^ (W - F - 1)) : InRange W (i * 2 ^ F) := by
  unfold InRange
  have e : (2 : Int) ^ (W - 1) = 2 ^ (W - F - 1) * 2 ^ F := by
    rw [← pow_add]
    congr 1
    omega
  have hp : (0 : Int) < 2 ^ F := by positivity
  have h := abs_lt.mp hi
  rw [e]
  constructor
  · have : -(2 ^ (W - F - 1)) * (2 : Int) ^ F ≤ i * 2 ^ F :=
      mul_le_mul_of_nonneg_right h.1.le hp.le
    linarith
  · exact mul_lt_mul_of_pos_right h.2 hp

theorem abs_lt_two_pow_inRange (W F : Nat) (i : Int)
    (hi : |i| < 2 ^ (W - F - 1)) : InRange W i := by
  unfold InRange
  have h := abs_lt.mp hi
  have : (2 : Int) ^ (W - F - 1) ≤ 2 ^ (W - 1) :=
    pow_le_pow_right₀ (by norm_num) (by omega)
  constructor <;> omega

/-- C6: for every integer `i` with `|i| < 2^(W-F-1)`,
`fixedpt_toint(fixedpt_fromint(i)) = i`, both when the intermediate value keeps
the type `fixedptd` of the macro `fixedpt_fromint` and when it is stored in a
`fixedpt` first; the intermediate value is `i * 2^F`. -/
theorem C6_int_round_trip (W F : Nat) (i : Int) (hW : 0 < W) (hF : F < W)
    (hi : |i| < 2 ^ (W - F - 1)) :
    fixedpt_toint F (fixedpt_fromint W F i) = i
    ∧ fixedpt_toint F (wrap W (fixedpt_fromint W F i)) = i
    ∧ fixedpt_fromint W F i = i * 2 ^ F := by
  have h1 : fixedpt_fromint W F i = i * 2 ^ F :=
    shl_dbits_eq W F i hW hF (abs_lt_two_pow_inRange W F i hi)
  have h2 : wrap W (i * 2 ^ F) = i * 2 ^ F :=
    wrap_eq_self W _ hW (abs_lt_two_pow_scaled W F i hF hi)
  have h3 : fixedpt_toint F (i * 2 ^ F) = i := by
    unfold fixedpt_toint
    rw [sar_eq_ediv]
    exact Int.mul_ediv_cancel i (by positivity)
  rw [h1, h2, h3]
  exact ⟨rfl, rfl, rfl⟩

/-- C6 at `W = 32`, `F = 8`, `i = -8388607`, the most negative integer the
claim covers. -/
theorem C6_int_round_trip_witness :
    |(-8388607 : Int)| < 2 ^ (32 - 8 - 1)
    ∧ fixedpt_toint 8 (fixedpt_fromint 32 8 (-8388607)) = -8388607 :=
  ⟨by decide, (C6_int_round_trip 32 8 (-8388607) (by decide) (by decide) (by decide)).1⟩

/-- C7: `fixedpt_toint(x)` is `floor(x / 2^F)` for every integer `x`, in
particular for every `W`-bit signed `x`; it rounds toward negative infinity,
not toward zero.  At `F = 8` (`W = 32`): `fixedpt_toint(fixedpt_fromint(-1))`
is `-1`, `fixedpt_toint(896)` is `3` and `fixedpt_toint(-896)` is `-4`, where
truncation toward zero would give `-3`. -/
theorem C7_toint_floor (F : Nat) (x : Int) :
    fixedpt_toint F x = ⌊(x : ℚ) / 2 ^ F⌋
    ∧ fixedpt_toint 8 (fixedpt_fromint 32 8 (-1)) = -1
    ∧ fixedpt_toint 8 896 = 3
    ∧ fixedpt_toint 8 (-896) = -4
    ∧ Int.tdiv (-896) (2 ^ 8) = -3 := by
  refine ⟨?_, by decide, by decide, by decide, by decide⟩
  unfold fixedpt_toint
  rw [sar_eq_ediv, floor_div_two_pow]

/-! ## Identities -/

theorem wrap_zero (n : Nat) : wrap n 0 = 0 := by
  unfold wrap
  simp

theorem fixedpt_fromint_zero (W F : Nat) : fixedpt_fromint W F 0 = 0 := by
  unfold fixedpt_fromint shl
  rw [wrap_zero, zero_mul, wrap_zero]

theorem two_pow_inRange (W F : Nat) (hF : F + 1 < W) : InRange W (2 ^ F) := by
  unfold InRange
  have h1 : (2 : Int) ^ F < 2 ^ (W - 1) := pow_lt_pow_right₀ (by norm_num) (by omega)
  have h2 : (0 : Int) < 2 ^ F := by positivity
  constructor <;> omega

theorem FIXEDPT_ONE_eq (W F : Nat) (hF : F + 1 < W) : FIXEDPT_ONE W F = 2 ^ F := by
  unfold FIXEDPT_ONE shl
  have h1 : wrap W 1 = 1 :=
    wrap_eq_self W 1 (by omega) (by simpa using two_pow_inRange W 0 (by omega))
  rw [h1, one_mul, wrap_wrap_of_le W (promote W) _ (by unfold promote; exact le_max_left _ _)]
  exact wrap_eq_self W _ (by omega) (two_pow_inRange W F hF)

/-- C8 as stated fails in the legal configurations with `F = W - 1`: there
`FIXEDPT_ONE`, the `W`-bit value of `1 << F`, is the most negative value, and
multiplying by it negates.  At `W = 32`, `F = 31`, `x = 1`:
`fixedpt_mul(1, FIXEDPT_ONE) = -1`. -/
theorem C8_mul_one_counterexample :
    (32 = 16 ∨ 32 = 32 ∨ 32 = 64) ∧ 0 < 31 ∧ 31 < 32 ∧ InRange 32 1
    ∧ FIXEDPT_ONE 32 31 = -(2 ^ 31)
    ∧ fixedpt_mul 32 31 1 (FIXEDPT_ONE 32 31) = -1
    ∧ fixedpt_mul 32 31 1 (FIXEDPT_ONE 32 31) ≠ 1 := by
  decide

/-- C8, amended: in every configuration with `F < W - 1` (so in every legal
configuration that leaves a whole bit besides the sign, for `W` in
`{16, 32, 64}` as for any other width), `FIXEDPT_ONE` is `2^F` and
`fixedpt_mul(x, FIXEDPT_ONE) = x` exactly for every `W`-bit signed `x`. -/
theorem C8_mul_one (W F : Nat) (x : Int) (hF : F + 1 < W) (hx : InRange W x) :
    fixedpt_mul W F x (FIXEDPT_ONE W F) = x ∧ FIXEDPT_ONE W F = 2 ^ F := by
  have hW : 0 < W := by omega
  have h1 := FIXEDPT_ONE_eq W F hF
  refine ⟨?_, h1⟩
  have h2 : InRange W ((2 : Int) ^ F) := two_pow_inRange W F hF
  unfold fixedpt_mul
  rw [h1, wrap_dbits_eq_self W x hW hx, wrap_dbits_eq_self W _ hW h2,
    wrap_eq_self (dbits W) _ (by unfold dbits; omega) (mul_inRange W x _ hW hx h2),
    sar_eq_ediv, Int.mul_ediv_cancel x (by positivity)]
  exact wrap_eq_self W x hW hx

/-- C8 at `W = 32`, `F = 8` and `x` the most negative 32-bit value. -/
theorem C8_mul_one_witness :
    8 + 1 < 32 ∧ InRange 32 (-2147483648)
    ∧ fixedpt_mul 32 8 (-2147483648) (FIXEDPT_ONE 32 8) = -2147483648 :=
  ⟨by decide, by decide, (C8_mul_one 32 8 (-2147483648) (by decide) (by decide)).1⟩

/-- C9: for every `W`-bit signed `x`, the most negative value included, and
whatever the width `n ≥ W` of the type in which the macros form the sum and
the difference (`W` itself, or the `2W` bits of `fixedpt_fromint(0)`):
`fixedpt_add(x, fixedpt_fromint(0)) = x` and
`fixedpt_add(x, fixedpt_sub(fixedpt_fromint(0), x)) = fixedpt_fromint(0)`. -/
theorem C9_add_identity_inverse (W F n : Nat) (x : Int) (hW : 0 < W) (hn : W ≤ n)
    (hx : InRange W x) :
    fixedpt_add n x (fixedpt_fromint W F 0) = x
    ∧ fixedpt_add n x (fixedpt_sub n (fixedpt_fromint W F 0) x) = fixedpt_fromint W F 0 := by
  rw [fixedpt_fromint_zero]
  unfold fixedpt_add fixedpt_sub
  constructor
  · rw [add_zero]
    exact wrap_eq_self n x (by omega) (InRange.mono hW hn hx)
  · rw [zero_sub]
    rw [← wrap_zero n]
    apply wrap_congr
    rw [Int.add_emod, wrap_emod, ← Int.add_emod, add_neg_cancel]

/-- C9 at `W = 32`, computed in 32 bits, at the most negative value: its
negation wraps back to itself and the sum wraps to zero. -/
theorem C9_add_identity_inverse_witness :
    InRange 32 (-2147483648)
    ∧ fixedpt_sub 32 (fixedpt_fromint 32 8 0) (-2147483648) = -2147483648
    ∧ fixedpt_add 32 (-2147483648) (fixedpt_fromint 32 8 0) = -2147483648
    ∧ fixedpt_add 32 (-2147483648)
        (fixedpt_sub 32 (fixedpt_fromint 32 8 0) (-2147483648)) = fixedpt_fromint 32 8 0 :=
  ⟨by decide, by decide,
    C9_add_identity_inverse 32 8 32 (-2147483648) (by decide) (by decide) (by decide)⟩

/-! ## Division after multiplication -/

theorem tmod_bounds_nonneg (a b : Int) (hb : b ≠ 0) (ha : 0 ≤ a) :
    0 ≤ Int.tmod a b ∧ Int.tmod a b < |b| := by
  refine ⟨Int.tmod_nonneg b ha, ?_⟩
  rcases lt_or_gt_of_ne hb with h | h
  · rw [abs_of_neg h, ← Int.tmod_neg]
    exact Int.tmod_lt_of_pos a (by omega)
  · rw [abs_of_pos h]
    exact Int.tmod_lt_of_pos a h

theorem tmod_neg_left (a b : Int) : Int.tmod (-a) b = -Int.tmod a b := by
  rw [Int.tmod_def, Int.tmod_def, Int.neg_tdiv]
  ring

theorem tmod_bounds_nonpos (a b : Int) (hb : b ≠ 0) (ha : a ≤ 0) :
    Int.tmod a b ≤ 0 ∧ -|b| < Int.tmod a b := by
  have h := tmod_bounds_nonneg (-a) b hb (by omega)
  rw [tmod_neg_left] at h
  constructor <;> omega

/-- Dividing `floor(x*y / S) * S` by `y` with truncation gives back `x`, or
its neighbour toward zero, when `|y| ≥ S`. -/
theorem tdiv_floor_near (S x y : Int) (hS : 0 < S) (hy : S ≤ |y|) :
    Int.tdiv (x * y / S * S) y = x
    ∨ (Int.tdiv (x * y / S * S) y = x - 1 ∧ 0 < x)
    ∨ (Int.tdiv (x * y / S * S) y = x + 1 ∧ x < 0) := by
  have hy0 : y ≠ 0 := by
    intro h
    rw [h, abs_zero] at hy
    omega
  have hr0 := Int.emod_nonneg (x * y) (show S ≠ 0 by omega)
  have hr1 := Int.emod_lt_of_pos (x * y) hS
  have hm := Int.emod_add_ediv (x * y) S
  have ht := Int.tmod_add_tdiv (x * y / S * S) y
  have hpos := tmod_bounds_nonneg (x * y / S * S) y hy0
  have hneg := tmod_bounds_nonpos (x * y / S * S) y hy0
  generalize Int.tdiv (x * y / S * S) y = t at *
  generalize Int.tmod (x * y / S * S) y = e at *
  generalize x * y % S = r at *
  have hD : x * y / S * S = x * y - r := by
    rw [mul_comm] ; omega
  rw [hD] at ht hpos hneg
  have key : (x - t) * y = r + e := by
    have : (x - t) * y = x * y - y * t := by ring
    omega
  rcases lt_or_gt_of_ne hy0 with hyn | hyp
  · rw [abs_of_neg hyn] at hy hpos hneg
    have hxy : 0 ≤ x → x * y ≤ 0 := fun h => mul_nonpos_iff.mpr (Or.inl ⟨h, hyn.le⟩)
    have hlo : -2 < x - t := by
      by_contra hc
      have : (-2) * y ≤ (x - t) * y := mul_le_mul_of_nonpos_right (not_lt.mp hc) hyn.le
      by_cases hD : 0 ≤ x * y - r
      · have := hpos hD
        omega
      · have := hneg (by omega)
        omega
    have hhi : x - t < 1 := by
      by_contra hc
      have : (x - t) * y ≤ 1 * y := mul_le_mul_of_nonpos_right (not_lt.mp hc) hyn.le
      by_cases hD : 0 ≤ x * y - r
      · have := hpos hD
        omega
      · have := hneg (by omega)
        omega
    rcases (show x - t = 0 ∨ x - t = -1 by omega) with hd | hd
    · left; omega
    · right; right
      refine ⟨by omega, ?_⟩
      by_contra hx
      have h1 := hxy (not_lt.mp hx)
      rw [hd] at key
      by_cases hD : 0 ≤ x * y - r
      · have h2 := hneg (by omega)
        omega
      · have h2 := hneg (by omega)
        omega
  · rw [abs_of_pos hyp] at hy hpos hneg
    have hxy : x ≤ 0 → x * y ≤ 0 := fun h => mul_nonpos_iff.mpr (Or.inr ⟨h, hyp.le⟩)
    have hlo : -1 < x - t := by
      by_contra hc
      have : (x - t) * y ≤ (-1) * y := mul_le_mul_of_nonneg_right (not_lt.mp hc) hyp.le
      by_cases hD : 0 ≤ x * y - r
      · have := hpos hD
        omega
      · have := hneg (by omega)
        omega
    have hhi : x - t < 2 := by
      by_contra hc
      have : 2 * y ≤ (x - t) * y := mul_le_mul_of_nonneg_right (not_lt.mp hc) hyp.le
      by_cases hD : 0 ≤ x * y - r
      · have := hpos hD
        omega
      · have := hneg (by omega)
        omega
    rcases (show x - t = 0 ∨ x - t = 1 by omega) with hd | hd
    · left; omega
    · right; left
      refine ⟨by omega, ?_⟩
      by_contra hx
      have h1 := hxy (not_lt.mp hx)
      rw [hd] at key
      have h2 := hneg (by omega)
      omega

theorem fbits_lt_of_le_abs (W F : Nat) (y : Int) (hW : 0 < W) (hy : InRange W y)
    (hy1 : 2 ^ F ≤ |y|) : F < W := by
  by_contra hc
  have h1 : (2 : Int) ^ (W - 1) < 2 ^ F := pow_lt_pow_right₀ (by norm_num) (by omega)
  have h2 : |y| ≤ 2 ^ (W - 1) := abs_le.mpr ⟨hy.1, hy.2.le⟩
  omega

/-- Dividing a product by one of its factors: when the factor `y` has magnitude
at least one (`|y| ≥ 2^F`) and the product `floor(x*y / 2^F)` fits in `W` bits,
the division does not wrap and returns `x` or its neighbour toward zero. -/
theorem fixedpt_div_mul_near (W F : Nat) (x y : Int) (hW : 0 < W) (hx : InRange W x)
    (hy : InRange W y) (hy1 : 2 ^ F ≤ |y|) (hfit : InRange W (x * y / 2 ^ F)) :
    ∃ t, fixedpt_div W F (fixedpt_mul W F x y) y = some t
      ∧ t = Int.tdiv (x * y / 2 ^ F * 2 ^ F) y
      ∧ (t = x ∨ (t = x - 1 ∧ 0 < x) ∨ (t = x + 1 ∧ x < 0)) := by
  have hF := fbits_lt_of_le_abs W F y hW hy hy1
  have hy0 : y ≠ 0 := by
    intro h
    rw [h, abs_zero] at hy1
    have : (0 : Int) < 2 ^ F := by positivity
    omega
  have hnear := tdiv_floor_near (2 ^ F) x y (by positivity) hy1
  have hmul : fixedpt_mul W F x y = x * y / 2 ^ F := by
    rw [fixedpt_mul_eq W F x y hW hx hy]
    exact wrap_eq_self W _ hW hfit
  rw [hmul, fixedpt_div_eq W F _ y hW hF hfit hy hy0]
  refine ⟨_, rfl, ?_, ?_⟩
  · apply wrap_eq_self W _ hW
    unfold InRange at *
    rcases hnear with h | h | h
    · rw [h]; exact hx
    · rw [h.1]; constructor <;> omega
    · rw [h.1]; constructor <;> omega
  · have hin : InRange W (Int.tdiv (x * y / 2 ^ F * 2 ^ F) y) := by
      unfold InRange at *
      rcases hnear with h | h | h
      · rw [h]; exact hx
      · rw [h.1]; constructor <;> omega
      · rw [h.1]; constructor <;> omega
    rw [wrap_eq_self W _ hW hin]
    exact hnear

/-- C10 as stated fails (`W = 32`, `F = 8`).  With the small factor `y = 1`
(1/256) and `x = 1000` the product truncates to `3` and the division returns
`768`; with `y = 250` (just below one) and `x = 43` the division returns `41`;
with `x = 2^30` and `y = 1024` (4.0) the product wraps to `0` and the division
returns `0`.  Each result is more than one raw unit away from `x`. -/
theorem C10_div_mul_counterexample :
    (InRange 32 1000 ∧ InRange 32 1 ∧ (1 : Int) ≠ 0
      ∧ fixedpt_div 32 8 (fixedpt_mul 32 8 1000 1) 1 = some 768
      ∧ ¬ (|(768 : Int) - 1000| ≤ 1))
    ∧ (InRange 32 43 ∧ InRange 32 250 ∧ (250 : Int) ≠ 0
      ∧ fixedpt_div 32 8 (fixedpt_mul 32 8 43 250) 250 = some 41
      ∧ ¬ (|(41 : Int) - 43| ≤ 1))
    ∧ (InRange 32 (2 ^ 30) ∧ InRange 32 1024 ∧ (1024 : Int) ≠ 0
      ∧ fixedpt_div 32 8 (fixedpt_mul 32 8 (2 ^ 30) 1024) 1024 = some 0
      ∧ ¬ (|(0 : Int) - 2 ^ 30| ≤ 1)) := by
  refine ⟨⟨by decide, by decide, by decide, by decide, ?_⟩,
    ⟨by decide, by decide, by decide, by decide, ?_⟩,
    ⟨by decide, by decide, by decide, by decide, ?_⟩⟩ <;> norm_num [abs_le]

/-- C10, amended: for every `W`-bit signed `x` and every `W`-bit signed `y` of
magnitude at least one (`|y| ≥ 2^F`) for which the product `floor(x*y / 2^F)`
fits in `W` bits (so that `fixedpt_mul(x,y)` does not wrap),
`fixedpt_div(fixedpt_mul(x,y), y)` returns a raw value that differs from the
raw value of `x` by at most 1. -/
theorem C10_div_mul_near_inverse (W F : Nat) (x y : Int) (hW : 0 < W)
    (hx : InRange W x) (hy : InRange W y) (hy1 : 2 ^ F ≤ |y|)
    (hfit : InRange W ⌊((x * y : Int) : ℚ) / 2 ^ F⌋) :
    ∃ r, fixedpt_div W F (fixedpt_mul W F x y) y = some r ∧ |r - x| ≤ 1 := by
  rw [floor_div_two_pow] at hfit
  obtain ⟨t, h1, -, h3⟩ := fixedpt_div_mul_near W F x y hW hx hy hy1 hfit
  refine ⟨t, h1, abs_le.mpr ?_⟩
  rcases h3 with h | h | h <;> constructor <;> omega

/-- C10, amended, at `W = 32`, `F = 8`, `x = 5` and `y = 300`: the product is
`5` and the division returns `4`. -/
theorem C10_div_mul_near_inverse_witness :
    InRange 32 5 ∧ InRange 32 300 ∧ (2 : Int) ^ 8 ≤ |300|
    ∧ fixedpt_div 32 8 (fixedpt_mul 32 8 5 300) 300 = some 4
    ∧ ∃ r, fixedpt_div 32 8 (fixedpt_mul 32 8 5 300) 300 = some r ∧ |r - 5| ≤ 1 :=
  ⟨by decide, by decide, by norm_num, by decide,
    C10_div_mul_near_inverse 32 8 5 300 (by decide) (by decide) (by decide) (by norm_num)
      (by rw [floor_div_two_pow]; decide)⟩

/-! ## Rounding direction of the multiplication -/

theorem fixedpt_xmul_eq (W F : Nat) (a b : Int) (hW : 0 < W) (ha : InRange W a)
    (hb : InRange W b) : fixedpt_xmul W F a b = wrap W (a * b / 2 ^ F) := by
  unfold fixedpt_xmul
  rw [wrap_dbits_eq_self W a hW ha, wrap_dbits_eq_self W b hW hb,
    wrap_eq_self (dbits W) _ (by unfold dbits; omega) (mul_inRange W a b hW ha hb),
    sar_eq_ediv]

theorem fixedpt_xdiv_eq (W F : Nat) (a b : Int) (hW : 0 < W) (hF : F < W)
    (ha : InRange W a) (hb : InRange W b) (hb0 : b ≠ 0) :
    fixedpt_xdiv W F a b = some (wrap W (Int.tdiv (a * 2 ^ F) b)) := by
  unfold fixedpt_xdiv
  rw [wrap_dbits_eq_self W b hW hb, if_neg hb0, shl_dbits_eq W F a hW hF ha,
    wrap_wrap_of_le W (dbits W) _ (by unfold dbits; omega)]

/-- C12: for every `W`-bit signed `a` and `b`, the macro `fixedpt_xmul(a,b)`
and the function `fixedpt_mul(a,b)` give the same result, also when the
function converts its arguments to `fixedpt` at the call, and both are
`floor(a*b / 2^F)` reduced to `W` bits; for every nonzero `b`, the macro
`fixedpt_xdiv(a,b)` and the function `fixedpt_div(a,b)` give the same result,
the truncated quotient of `a * 2^F` by `b` reduced to `W` bits.  The results
agree on overflowing inputs as well: at `W = 32`, `F = 8` both products of
`2^30` and `1024` are `0`, and both quotients of `-2^31` by `-1` are `0`. -/
theorem C12_macro_function_agree (W F : Nat) (a b : Int) (hW : 0 < W) (hF : F < W)
    (ha : InRange W a) (hb : InRange W b) :
    fixedpt_xmul W F a b = fixedpt_mul W F a b
    ∧ fixedpt_xmul W F a b = fixedpt_mul W F (wrap W a) (wrap W b)
    ∧ fixedpt_xmul W F a b = wrap W (a * b / 2 ^ F)
    ∧ (b ≠ 0 → fixedpt_xdiv W F a b = fixedpt_div W F a b
        ∧ fixedpt_xdiv W F a b = fixedpt_div W F (wrap W a) (wrap W b)
        ∧ fixedpt_xdiv W F a b = some (wrap W (Int.tdiv (a * 2 ^ F) b)))
    ∧ fixedpt_xmul 32 8 (2 ^ 30) 1024 = 0 ∧ fixedpt_mul 32 8 (2 ^ 30) 1024 = 0
    ∧ fixedpt_xdiv 32 8 (-(2 ^ 31)) (-1) = some 0
    ∧ fixedpt_div 32 8 (-(2 ^ 31)) (-1) = some 0 := by
  have hwa := wrap_eq_self W a hW ha
  have hwb := wrap_eq_self W b hW hb
  refine ⟨?_, ?_, fixedpt_xmul_eq W F a b hW ha hb, ?_, by decide, by decide, by decide,
    by decide⟩
  · rw [fixedpt_xmul_eq W F a b hW ha hb, fixedpt_mul_eq W F a b hW ha hb]
  · rw [hwa, hwb, fixedpt_xmul_eq W F a b hW ha hb, fixedpt_mul_eq W F a b hW ha hb]
  · intro hb0
    have h1 := fixedpt_xdiv_eq W F a b hW hF ha hb hb0
    have h2 := fixedpt_div_eq W F a b hW hF ha hb hb0
    refine ⟨by rw [h1, h2], by rw [hwa, hwb, h1, h2], h1⟩

/-- C12 at `W = 32`, `F = 8`, `a = -1792` (-7.0), `b = 512` (2.0). -/
theorem C12_macro_function_agree_witness :
    InRange 32 (-1792) ∧ InRange 32 512 ∧ (512 : Int) ≠ 0
    ∧ fixedpt_xmul 32 8 (-1792) 512 = fixedpt_mul 32 8 (-1792) 512
    ∧ fixedpt_xdiv 32 8 (-1792) 512 = fixedpt_div 32 8 (-1792) 512 :=
  ⟨by decide, by decide, by decide,
    (C12_macro_function_agree 32 8 (-1792) 512 (by decide) (by decide) (by decide)
      (by decide)).1,
    ((C12_macro_function_agree 32 8 (-1792) 512 (by decide) (by decide) (by decide)
      (by decide)).2.2.2.1 (by decide)).1⟩

/-! ## Fractional part -/

theorem ldiff_two_pow_sub_one (a F : Nat) :
    Nat.ldiff (2 ^ F - 1) a = 2 ^ F - (a % 2 ^ F + 1) := by
  apply Nat.eq_of_testBit_eq
  intro i
  have hlt : a % 2 ^ F < 2 ^ F := Nat.mod_lt _ (by positivity)
  rw [Nat.testBit_ldiff, Nat.testBit_two_pow_sub_one, Nat.testBit_two_pow_sub_succ hlt,
    Nat.testBit_mod_two_pow]
  by_cases h : i < F <;> simp [h]

theorem land_two_pow_sub_one (x : Int) (F : Nat) :
    Int.land x (2 ^ F - 1) = x % 2 ^ F := by
  have hm : ((2 : Int) ^ F - 1) = ((2 ^ F - 1 : Nat) : Int) := by
    have : 1 ≤ 2 ^ F := Nat.one_le_two_pow
    push_cast [Nat.cast_sub this]
    rfl
  rw [hm]
  cases x with
  | ofNat a =>
    show ((a &&& (2 ^ F - 1) : Nat) : Int) = (a : Int) % 2 ^ F
    rw [Nat.and_pow_two_sub_one_eq_mod]
    push_cast
    rfl
  | negSucc a =>
    show ((Nat.ldiff (2 ^ F - 1) a : Nat) : Int) = Int.negSucc a % 2 ^ F
    rw [ldiff_two_pow_sub_one, Int.negSucc_emod a (by positivity)]
    have hlt : a % 2 ^ F < 2 ^ F := Nat.mod_lt _ (by positivity)
    rw [Nat.cast_sub (by omega)]
    push_cast
    omega

theorem one_inRange (W : Nat) (hW : 2 ≤ W) : InRange W 1 := by
  simpa using two_pow_inRange W 0 (by omega)

theorem FIXEDPT_FMASK_eq (W F : Nat) (hW : 2 ≤ W) (hF : F < W) :
    FIXEDPT_FMASK W F = 2 ^ F - 1 := by
  unfold FIXEDPT_FMASK shl
  have hP : W ≤ promote W := by unfold promote; exact le_max_left _ _
  rw [wrap_eq_self W 1 (by omega) (one_inRange W hW), one_mul]
  have e : wrap (promote W) (wrap (promote W) (2 ^ F) - 1) = wrap (promote W) (2 ^ F - 1) := by
    apply wrap_congr
    rw [Int.sub_emod, wrap_emod, ← Int.sub_emod]
  rw [e]
  apply wrap_eq_self _ _ (by omega)
  unfold InRange
  have h1 : (2 : Int) ^ F ≤ 2 ^ (promote W - 1) := pow_le_pow_right₀ (by norm_num) (by omega)
  have h2 : (0 : Int) < 2 ^ F := by positivity
  constructor <;> omega

theorem fixedpt_fracpart_eq (W F : Nat) (x : Int) (hW : 2 ≤ W) (hF : F < W)
    (hx : InRange W x) : fixedpt_fracpart W F x = x % 2 ^ F := by
  unfold fixedpt_fracpart
  rw [FIXEDPT_FMASK_eq W F hW hF, wrap_eq_self W x (by omega) hx, land_two_pow_sub_one]

/-- C13: for every `W`-bit signed `x`, positive or negative,
`0 ≤ fixedpt_fracpart(x) < 2^F`, and `fixedpt_fracpart(x)` is `x mod 2^F`, the
low `F` bits of `x`; the mask `FIXEDPT_FMASK` is `2^F - 1`. -/
theorem C13_fracpart_range (W F : Nat) (x : Int) (hW : 2 ≤ W) (hF : F < W)
    (hx : InRange W x) :
    0 ≤ fixedpt_fracpart W F x
    ∧ fixedpt_fracpart W F x < 2 ^ F
    ∧ fixedpt_fracpart W F x = x % 2 ^ F
    ∧ FIXEDPT_FMASK W F = 2 ^ F - 1 := by
  rw [fixedpt_fracpart_eq W F x hW hF hx]
  have hS : (0 : Int) < 2 ^ F := by positivity
  exact ⟨Int.emod_nonneg x (by omega), Int.emod_lt_of_pos x hS, rfl,
    FIXEDPT_FMASK_eq W F hW hF⟩

/-- C13 at `W = 32`, `F = 8`, `x = -896` (-3.5): the fractional part is `128`
(one half). -/
theorem C13_fracpart_range_witness :
    2 ≤ 32 ∧ 8 < 32 ∧ InRange 32 (-896)
    ∧ fixedpt_fracpart 32 8 (-896) = (-896) % 2 ^ 8
    ∧ ((-896 : Int) % 2 ^ 8 = 128) :=
  ⟨by decide, by decide, by decide,
    (C13_fracpart_range 32 8 (-896) (by decide) (by decide) (by decide)).2.2.1, by decide⟩

/-- C20: for every `W`-bit signed `x`, negative ones included,
`x = fixedpt_toint(x) * 2^F + fixedpt_fracpart(x)`: the floor-rounded integer
part and the non-negative fractional part reconstruct `x` exactly. -/
theorem C20_whole_fraction_decomposition (W F : Nat) (x : Int) (hW : 2 ≤ W) (hF : F < W)
    (hx : InRange W x) :
    x = fixedpt_toint F x * 2 ^ F + fixedpt_fracpart W F x := by
  rw [fixedpt_fracpart_eq W F x hW hF hx]
  unfold fixedpt_toint
  rw [sar_eq_ediv, mul_comm]
  exact (Int.ediv_add_emod x (2 ^ F)).symm

/-- C20 at `W = 32`, `F = 8`, `x = -896` (-3.5): the integer part is `-4`. -/
theorem C20_whole_fraction_decomposition_witness :
    2 ≤ 32 ∧ 8 < 32 ∧ InRange 32 (-896) ∧ fixedpt_toint 8 (-896) = -4
    ∧ (-896 : Int) = fixedpt_toint 8 (-896) * 2 ^ 8 + fixedpt_fracpart 32 8 (-896) :=
  ⟨by decide, by decide, by decide, by decide,
    C20_whole_fraction_decomposition 32 8 (-896) (by decide) (by decide) (by decide)⟩

/-! ## Absolute value -/

theorem min_inRange (W : Nat) : InRange W (-(2 ^ (W - 1))) := by
  unfold InRange
  have hp : (0 : Int) < 2 ^ (W - 1) := by positivity
  constructor <;> omega

theorem wrap_two_pow_pred (W : Nat) (hW : 0 < W) :
    wrap W (2 ^ (W - 1)) = -(2 ^ (W - 1)) := by
  have e : wrap W (2 ^ (W - 1)) = wrap W (-(2 ^ (W - 1))) := by
    apply wrap_congr
    have h : (-(2 ^ (W - 1)) + 2 ^ W : Int) = 2 ^ (W - 1) := by
      rw [two_pow_pred W hW]; ring
    have e2 : (2 ^ (W - 1) : Int) % 2 ^ W = (-(2 ^ (W - 1)) + 2 ^ W) % 2 ^ W := by rw [h]
    rw [e2, Int.add_emod_self]
  rw [e]
  exact wrap_eq_self W _ hW (min_inRange W)

/-- C15, evaluated where the code departs from the claim, in the default build
(`W = 32`, `F = 8`): `FIXEDPT_MINUS_5` is `-1277` whereas `-FIXEDPT_FIVE` and
`fixedpt_fromint(-5)` are `-1280`; `FIXEDPT_MINUS_1_8` is `-459` whereas
`FIXEDPT_1_8` is `461`; and `fixedpt_rconst(5)` is `1282`, so
`fixedpt_rconst(-5)` is not `-fixedpt_rconst(5)`. -/
theorem C15_negative_constants_failing_input :
    FIXEDPT_MINUS_5 32 8 = -1277
    ∧ FIXEDPT_FIVE 32 8 = 1280
    ∧ fixedpt_fromint 32 8 (-5) = -1280
    ∧ FIXEDPT_MINUS_5 32 8 ≠ -FIXEDPT_FIVE 32 8
    ∧ FIXEDPT_1_8 32 8 = 461
    ∧ FIXEDPT_MINUS_1_8 32 8 = -459
    ∧ FIXEDPT_MINUS_1_8 32 8 ≠ -FIXEDPT_1_8 32 8
    ∧ fixedpt_rconst 32 8 5 = 1282
    ∧ fixedpt_rconst 32 8 (-5) ≠ -fixedpt_rconst 32 8 5 := by
  have hm5 : fixedpt_rconst 32 8 (-5) = -1277 := by
    rw [fixedpt_rconst_eq 32 8 (-5) 256 (by decide)]
    have h : truncQ ((-5 : ℚ) * (((256 : Int) : ℚ)
        + (if (-5 : ℚ) ≥ 0 then 1 / 2 else -(1 / 2)))) = -1277 :=
      truncQ_eq_of_neg _ _ (by norm_num) (by norm_num) (by norm_num)
    rw [h]
    decide
  have h5 : fixedpt_rconst 32 8 5 = 1282 := by
    rw [fixedpt_rconst_eq 32 8 5 256 (by decide)]
    have h : truncQ ((5 : ℚ) * (((256 : Int) : ℚ)
        + (if (5 : ℚ) ≥ 0 then 1 / 2 else -(1 / 2)))) = 1282 :=
      truncQ_eq_of_nonneg _ _ (by norm_num) (by norm_num) (by norm_num)
    rw [h]
    decide
  have h18 : FIXEDPT_1_8 32 8 = 461 := by
    unfold FIXEDPT_1_8
    rw [fixedpt_rconst_eq 32 8 (18 / 10) 256 (by decide)]
    have h : truncQ ((18 / 10 : ℚ) * (((256 : Int) : ℚ)
        + (if (18 / 10 : ℚ) ≥ 0 then 1 / 2 else -(1 / 2)))) = 461 :=
      truncQ_eq_of_nonneg _ _ (by norm_num) (by norm_num) (by norm_num)
    rw [h]
    decide
  have hm18 : FIXEDPT_MINUS_1_8 32 8 = -459 := by
    unfold FIXEDPT_MINUS_1_8
    rw [fixedpt_rconst_eq 32 8 (-(18 / 10)) 256 (by decide)]
    have h : truncQ ((-(18 / 10) : ℚ) * (((256 : Int) : ℚ)
        + (if (-(18 / 10) : ℚ) ≥ 0 then 1 / 2 else -(1 / 2)))) = -459 :=
      truncQ_eq_of_neg _ _ (by norm_num) (by norm_num) (by norm_num)
    rw [h]
    decide
  have hM5 : FIXEDPT_MINUS_5 32 8 = -1277 := hm5
  have hF5 : FIXEDPT_FIVE 32 8 = 1280 := by decide
  refine ⟨hM5, hF5, by decide, ?_, h18, hm18, ?_, h5, ?_⟩
  · rw [hM5, hF5]; decide
  · rw [h18, hm18]; decide
  · rw [hm5, h5]; decide

theorem wrap_small (n W : Nat) (z : Int) (hW : 0 < W) (hn : W ≤ n) (h0 : 0 ≤ z)
    (h1 : z < 2 ^ (W - 1)) : wrap n z = z := by
  apply wrap_eq_self n z (by omega)
  apply InRange.mono hW hn
  unfold InRange
  constructor <;> omega

theorem uwrap_neg_one (W : Nat) : uwrap W (-1) = 2 ^ W - 1 := by
  unfold uwrap
  have hp : (0 : Int) < 2 ^ W := by positivity
  have e : (-1 : Int) % 2 ^ W = (-1 + 2 ^ W) % 2 ^ W := by rw [Int.add_emod_self]
  rw [e]
  exact (Int.emod_eq_of_lt (by omega) (by omega)).trans (by ring)

theorem FIXEDPT_MAX_eq (W : Nat) (hW : 0 < W) : FIXEDPT_MAX W = 2 ^ (W - 1) - 1 := by
  unfold FIXEDPT_MAX
  have hp : (0 : Int) < 2 ^ (W - 1) := by positivity
  have h : sar (uwrap W (-1)) 1 = 2 ^ (W - 1) - 1 := by
    rw [uwrap_neg_one, sar_eq_ediv, two_pow_pred W hW, pow_one]
    omega
  rw [h]
  apply wrap_eq_self W _ hW
  unfold InRange
  constructor <;> omega

/-- C16: in every configuration with `F ≥ 2` and `W - F ≥ 12` the shift-derived
constants are exact: `FIXEDPT_ONE = 2^F`, `FIXEDPT_ONE_HALF = 2^(F-1)`,
`FIXEDPT_QUARTER = 2^(F-2)`, `FIXEDPT_TWO = 2 * 2^F`, `FIXEDPT_FIVE = 5 * 2^F`,
`FIXEDPT_1_5 = 3 * 2^(F-1)`, `FIXEDPT_1024 = 1024 * 2^F`, so that each is its
real value times `2^F` (twice the half, four times the quarter and twice the
one-and-a-half are `2^F`, `2^F` and `3 * 2^F`), and `FIXEDPT_MAX = 2^(W-1) - 1`
is the largest `W`-bit signed value. -/
theorem C16_shift_constants (W F : Nat) (hF : 2 ≤ F) (hWF : F + 12 ≤ W) :
    FIXEDPT_ONE W F = 2 ^ F
    ∧ FIXEDPT_ONE_HALF W F = 2 ^ (F - 1)
    ∧ FIXEDPT_QUARTER W F = 2 ^ (F - 2)
    ∧ FIXEDPT_TWO W F = 2 * 2 ^ F
    ∧ FIXEDPT_FIVE W F = 5 * 2 ^ F
    ∧ FIXEDPT_1_5 W F = 3 * 2 ^ (F - 1)
    ∧ FIXEDPT_1024 W F = 1024 * 2 ^ F
    ∧ 2 * FIXEDPT_ONE_HALF W F = 2 ^ F
    ∧ 4 * FIXEDPT_QUARTER W F = 2 ^ F
    ∧ 2 * FIXEDPT_1_5 W F = 3 * 2 ^ F
    ∧ FIXEDPT_MAX W = 2 ^ (W - 1) - 1
    ∧ InRange W (FIXEDPT_MAX W)
    ∧ (∀ z, InRange W z → z ≤ FIXEDPT_MAX W) := by
  have hW : 0 < W := by omega
  have hP : W ≤ promote W := by unfold promote; exact le_max_left _ _
  have hone := FIXEDPT_ONE_eq W F (by omega)
  have hS : (0 : Int) < 2 ^ (F - 2) := by positivity
  have e0 : (2 : Int) ^ F = 4 * 2 ^ (F - 2) := by
    have : F = (F - 2) + 2 := by omega
    rw [this, pow_add]
    simp
    ring
  have e1 : (2 : Int) ^ (F - 1) = 2 * 2 ^ (F - 2) := by
    have : F - 1 = (F - 2) + 1 := by omega
    rw [this, pow_succ]
    ring
  have e2 : (2 : Int) ^ (F + 10) = 4096 * 2 ^ (F - 2) := by
    have : F + 10 = (F - 2) + 12 := by omega
    rw [this, pow_add]
    norm_num
    ring
  have hB : (8192 : Int) * 2 ^ (F - 2) ≤ 2 ^ (W - 1) := by
    have h1 : (2 : Int) ^ (F + 11) ≤ 2 ^ (W - 1) := pow_le_pow_right₀ (by norm_num) (by omega)
    have h2 : (2 : Int) ^ (F + 11) = 8192 * 2 ^ (F - 2) := by
      have : F + 11 = (F - 2) + 13 := by omega
      rw [this, pow_add]
      norm_num
      ring
    omega
  have hmax := FIXEDPT_MAX_eq W hW
  have hhalf : FIXEDPT_ONE_HALF W F = 2 ^ (F - 1) := by
    unfold FIXEDPT_ONE_HALF
    rw [hone, sar_eq_ediv, e0, e1, pow_one]
    omega
  have hquarter : FIXEDPT_QUARTER W F = 2 ^ (F - 2) := by
    unfold FIXEDPT_QUARTER
    rw [hone, sar_eq_ediv, e0]
    norm_num
  have htwo : FIXEDPT_TWO W F = 2 * 2 ^ F := by
    unfold FIXEDPT_TWO
    rw [hone, wrap_small (promote W) W _ hW hP (by omega) (by omega)]
    ring
  have hfive : FIXEDPT_FIVE W F = 5 * 2 ^ F := by
    unfold FIXEDPT_FIVE
    rw [hone, wrap_small (promote W) W (2 ^ F + 2 ^ F) hW hP (by omega) (by omega),
      wrap_small (promote W) W (2 ^ F + 2 ^ F + 2 ^ F) hW hP (by omega) (by omega),
      wrap_small (promote W) W (2 ^ F + 2 ^ F + 2 ^ F + 2 ^ F) hW hP (by omega) (by omega),
      wrap_small (promote W) W _ hW hP (by omega) (by omega)]
    ring
  have h15 : FIXEDPT_1_5 W F = 3 * 2 ^ (F - 1) := by
    unfold FIXEDPT_1_5 shl
    have h3 : wrap W 3 = 3 := wrap_small W W 3 hW le_rfl (by norm_num) (by omega)
    rw [h3, wrap_small (promote W) W _ hW hP (by omega) (by omega),
      wrap_small W W _ hW le_rfl (by omega) (by omega)]
  have h1024 : FIXEDPT_1024 W F = 1024 * 2 ^ F := by
    unfold FIXEDPT_1024 shl
    have h1 : wrap W 1 = 1 := wrap_small W W 1 hW le_rfl (by norm_num) (by omega)
    rw [h1, one_mul, wrap_small (promote W) W _ hW hP (by omega) (by omega),
      wrap_small W W _ hW le_rfl (by omega) (by omega)]
    omega
  refine ⟨hone, hhalf, hquarter, htwo, hfive, h15, h1024, ?_, ?_, ?_, hmax, ?_, ?_⟩
  · rw [hhalf]; omega
  · rw [hquarter]; omega
  · rw [h15]; omega
  · rw [hmax]
    unfold InRange
    have hp : (0 : Int) < 2 ^ (W - 1) := by positivity
    constructor <;> omega
  · intro z hz
    rw [hmax]
    unfold InRange at hz
    omega

/-- C16 in the default build, `W = 32` and `F = 8`. -/
theorem C16_shift_constants_witness :
    2 ≤ 8 ∧ 8 + 12 ≤ 32
    ∧ FIXEDPT_ONE 32 8 = 2 ^ 8
    ∧ FIXEDPT_FIVE 32 8 = 5 * 2 ^ 8
    ∧ FIXEDPT_1024 32 8 = 1024 * 2 ^ 8
    ∧ FIXEDPT_MAX 32 = 2 ^ (32 - 1) - 1 :=
  ⟨by decide, by decide,
    (C16_shift_constants 32 8 (by decide) (by decide)).1,
    (C16_shift_constants 32 8 (by decide) (by decide)).2.2.2.2.1,
    (C16_shift_constants 32 8 (by decide) (by decide)).2.2.2.2.2.2.1,
    (C16_shift_constants 32 8 (by decide) (by decide)).2.2.2.2.2.2.2.2.2.2.1⟩

/-! ## Construction from an integer -/

theorem fixedpt_fromint_eq_wrap (W F : Nat) (i : Int) :
    fixedpt_fromint W F i = wrap (dbits W) (i * 2 ^ F) := by
  unfold fixedpt_fromint shl
  apply wrap_congr
  rw [Int.mul_emod, wrap_emod, ← Int.mul_emod]

/-- C17 as stated fails: the macro `fixedpt_fromint` yields a value of the
double-width type and does not narrow it.  At `W = 32`, `F = 8`,
`fixedpt_fromint(2^23)` is `2^31`, which is not a 32-bit signed value and is
not `wrap32(2^23 * 2^8) = -2^31`. -/
theorem C17_fromint_counterexample :
    fixedpt_fromint 32 8 (2 ^ 23) = 2 ^ 31
    ∧ ¬ InRange 32 (fixedpt_fromint 32 8 (2 ^ 23))
    ∧ wrap 32 (2 ^ 23 * 2 ^ 8) = -(2 ^ 31)
    ∧ fixedpt_fromint 32 8 (2 ^ 23) ≠ wrap 32 (2 ^ 23 * 2 ^ 8) := by
  decide

/-- C17, amended: for every integer `i`, `fixedpt_fromint(i)` is the value
`i * 2^F` reduced to the `2W` bits of `fixedptd`, computed without rounding;
the macro does not narrow it, and once converted to `fixedpt` it is
`wrapW(i * 2^F)`.  It equals `i * 2^F`, before and after that conversion, when
`|i| < 2^(W-F-1)`.  At `W = 32`, `F = 8`, `fixedpt_fromint(2^23)` is `2^31` and
becomes `-2^31` once stored in a `fixedpt`. -/
theorem C17_fromint (W F : Nat) (i : Int) (hW : 0 < W) :
    fixedpt_fromint W F i = wrap (dbits W) (i * 2 ^ F)
    ∧ InRange (dbits W) (fixedpt_fromint W F i)
    ∧ wrap W (fixedpt_fromint W F i) = wrap W (i * 2 ^ F)
    ∧ (F < W → |i| < 2 ^ (W - F - 1) →
        fixedpt_fromint W F i = i * 2 ^ F ∧ wrap W (fixedpt_fromint W F i) = i * 2 ^ F)
    ∧ fixedpt_fromint 32 8 (2 ^ 23) = 2 ^ 31
    ∧ wrap 32 (fixedpt_fromint 32 8 (2 ^ 23)) = -(2 ^ 31) := by
  have h1 := fixedpt_fromint_eq_wrap W F i
  refine ⟨h1, ?_, ?_, ?_, by decide, by decide⟩
  · rw [h1]
    exact wrap_inRange (dbits W) _ (by unfold dbits; omega)
  · rw [h1]
    exact wrap_wrap_of_le W (dbits W) _ (by unfold dbits; omega)
  · intro hF hi
    have h2 : fixedpt_fromint W F i = i * 2 ^ F :=
      shl_dbits_eq W F i hW hF (abs_lt_two_pow_inRange W F i hi)
    rw [h2]
    exact ⟨rfl, wrap_eq_self W _ hW (abs_lt_two_pow_scaled W F i hF hi)⟩

/-- C17, amended, at `W = 32`, `F = 8`, `i = -8388608 = -2^23`: the value
`-2^31` is exact although `|i| = 2^(W-F-1)`. -/
theorem C17_fromint_witness :
    0 < 32
    ∧ fixedpt_fromint 32 8 (-8388608) = wrap (dbits 32) (-8388608 * 2 ^ 8)
    ∧ wrap 32 (fixedpt_fromint 32 8 (-8388608)) = wrap 32 (-8388608 * 2 ^ 8)
    ∧ wrap 32 (-8388608 * 2 ^ 8) = -8388608 * 2 ^ 8 :=
  ⟨by decide, (C17_fromint 32 8 (-8388608) (by decide)).1,
    (C17_fromint 32 8 (-8388608) (by decide)).2.2.1, by decide⟩

/-! ## Near-inverse and overflow of the division -/

/-- C18: for every `W`-bit `x` and every `W`-bit `y` with `|y| ≥ 2^F` such that
`floor(x*y / 2^F)` fits in `W` bits (`fixedpt_mul(x,y)` is that floor, it does
not wrap), `fixedpt_div(fixedpt_mul(x,y), y)` returns `x - 1`, `x` or `x + 1`,
and the division does not wrap: the truncated quotient of
`fixedpt_mul(x,y) * 2^F` by `y` is a `W`-bit value and is the result. -/
theorem C18_near_inverse_magnitude (W F : Nat) (x y : Int) (hW : 0 < W)
    (hx : InRange W x) (hy : InRange W y) (hy1 : 2 ^ F ≤ |y|)
    (hfit : InRange W ⌊((x * y : Int) : ℚ) / 2 ^ F⌋) :
    fixedpt_mul W F x y = ⌊((x * y : Int) : ℚ) / 2 ^ F⌋
    ∧ InRange W (Int.tdiv (fixedpt_mul W F x y * 2 ^ F) y)
    ∧ fixedpt_div W F (fixedpt_mul W F x y) y
        = some (Int.tdiv (fixedpt_mul W F x y * 2 ^ F) y)
    ∧ ∃ t, fixedpt_div W F (fixedpt_mul W F x y) y = some t
        ∧ (t = x - 1 ∨ t = x ∨ t = x + 1) := by
  rw [floor_div_two_pow] at hfit ⊢
  have hmul : fixedpt_mul W F x y = x * y / 2 ^ F := by
    rw [fixedpt_mul_eq W F x y hW hx hy]
    exact wrap_eq_self W _ hW hfit
  obtain ⟨t, h1, h2, h3⟩ := fixedpt_div_mul_near W F x y hW hx hy hy1 hfit
  have hin : InRange W t := by
    unfold InRange at *
    rcases h3 with h | h | h
    · rw [h]; exact hx
    · rw [h.1]; constructor <;> omega
    · rw [h.1]; constructor <;> omega
  refine ⟨hmul, ?_, ?_, t, h1, ?_⟩
  · rw [hmul, ← h2]; exact hin
  · rw [h1, hmul, ← h2]
  · rcases h3 with h | h | h
    · exact Or.inr (Or.inl h)
    · exact Or.inl h.1
    · exact Or.inr (Or.inr h.1)

/-- C18 at `W = 32`, `F = 8`, `x = -5` and `y = 300`: the product is `-6` and
the division returns `-5`. -/
theorem C18_near_inverse_magnitude_witness :
    InRange 32 (-5) ∧ InRange 32 300 ∧ (2 : Int) ^ 8 ≤ |300|
    ∧ fixedpt_mul 32 8 (-5) 300 = -6
    ∧ fixedpt_div 32 8 (fixedpt_mul 32 8 (-5) 300) 300 = some (-5)
    ∧ InRange 32 (Int.tdiv (fixedpt_mul 32 8 (-5) 300 * 2 ^ 8) 300) :=
  ⟨by decide, by decide, by norm_num, by decide, by decide,
    (C18_near_inverse_magnitude 32 8 (-5) 300 (by decide) (by decide) (by decide)
      (by norm_num) (by rw [floor_div_two_pow]; decide)).2.1⟩

theorem natAbs_tdiv_le (a S b : Int) (hS : 0 < S) (hb : S ≤ |b|) :
    (Int.tdiv (a * S) b).natAbs ≤ a.natAbs := by
  rw [Int.natAbs_tdiv, Int.natAbs_mul]
  have h1 : S.natAbs ≤ b.natAbs := by
    have := Int.natCast_natAbs b
    omega
  show a.natAbs * S.natAbs / b.natAbs ≤ a.natAbs
  apply Nat.div_le_of_le_mul
  rw [Nat.mul_comm]
  exact Nat.mul_le_mul_right _ h1

theorem natAbs_tdiv_lt (a S b : Int) (hS : 0 < S) (ha : a ≠ 0) (hb : S < |b|) :
    (Int.tdiv (a * S) b).natAbs < a.natAbs := by
  rw [Int.natAbs_tdiv, Int.natAbs_mul]
  have h1 : S.natAbs < b.natAbs := by
    have := Int.natCast_natAbs b
    omega
  show a.natAbs * S.natAbs / b.natAbs < a.natAbs
  rw [Nat.div_lt_iff_lt_mul (by omega)]
  exact Nat.mul_lt_mul_of_pos_left h1 (by omega)


theorem tdiv_scaled_inRange (B S a b : Int) (hS : 0 < S)
    (ha : -B ≤ a ∧ a < B) (hb : S ≤ |b|) (hne : ¬ (a = -B ∧ b = -S)) :
    -B ≤ Int.tdiv (a * S) b ∧ Int.tdiv (a * S) b < B ∧ |Int.tdiv (a * S) b| ≤ |a| := by
  have hle := natAbs_tdiv_le a S b hS hb
  have habs : |Int.tdiv (a * S) b| ≤ |a| := by
    rw [← Int.natCast_natAbs, ← Int.natCast_natAbs]
    exact_mod_cast hle
  refine ⟨by omega, ?_, habs⟩
  by_contra hq
  have haB : a = -B := by omega
  have hqB : Int.tdiv (a * S) b = B := by omega
  have hbS : |b| = S := by
    by_contra hc
    have hlt := natAbs_tdiv_lt a S b hS (by omega) (lt_of_le_of_ne hb (Ne.symm hc))
    omega
  rcases abs_eq (le_of_lt hS) |>.mp hbS with h | h
  · rw [h, Int.mul_tdiv_cancel a (by omega)] at hqB
    omega
  · exact hne ⟨haB, h⟩

/-- C19: for `F < W - 1`, every `W`-bit `a` and every `W`-bit `b` with
`|b| ≥ 2^F`: if `(a,b)` is not `(MIN, -FIXEDPT_ONE)` the truncated quotient of
`a * 2^F` by `b` fits in `W` bits, `fixedpt_div(a,b)` returns it without
wrapping, and its magnitude is at most `|a|`; at `(MIN, -FIXEDPT_ONE)` the
quotient is `2^(W-1)`, which does not fit, and `fixedpt_div` returns `MIN`. -/
theorem C19_div_no_overflow (W F : Nat) (a b : Int) (hF : F + 1 < W)
    (ha : InRange W a) (hb : InRange W b) (hb1 : 2 ^ F ≤ |b|) :
    (¬ (a = -(2 ^ (W - 1)) ∧ b = -FIXEDPT_ONE W F) →
      InRange W (Int.tdiv (a * 2 ^ F) b)
      ∧ fixedpt_div W F a b = some (Int.tdiv (a * 2 ^ F) b)
      ∧ |Int.tdiv (a * 2 ^ F) b| ≤ |a|)
    ∧ Int.tdiv (-(2 ^ (W - 1)) * 2 ^ F) (-FIXEDPT_ONE W F) = 2 ^ (W - 1)
    ∧ ¬ InRange W (2 ^ (W - 1))
    ∧ fixedpt_div W F (-(2 ^ (W - 1))) (-FIXEDPT_ONE W F) = some (-(2 ^ (W - 1))) := by
  have hW : 0 < W := by omega
  have hS : (0 : Int) < 2 ^ F := by positivity
  have hone := FIXEDPT_ONE_eq W F hF
  have hb0 : b ≠ 0 := by
    intro h
    rw [h, abs_zero] at hb1
    omega
  have hq : Int.tdiv (-(2 ^ (W - 1)) * 2 ^ F) (-(2 ^ F)) = 2 ^ (W - 1) := by
    rw [Int.tdiv_neg, Int.mul_tdiv_cancel _ (by omega), neg_neg]
  have hSr := two_pow_inRange W F hF
  have hnS : InRange W (-(2 ^ F)) := by
    unfold InRange at *
    constructor <;> omega
  rw [hone]
  refine ⟨?_, hq, ?_, ?_⟩
  · intro hne
    have h := tdiv_scaled_inRange (2 ^ (W - 1)) (2 ^ F) a b hS ha hb1 hne
    have hin : InRange W (Int.tdiv (a * 2 ^ F) b) := ⟨h.1, h.2.1⟩
    refine ⟨hin, ?_, h.2.2⟩
    rw [fixedpt_div_eq W F a b hW (by omega) ha hb hb0, wrap_eq_self W _ hW hin]
  · unfold InRange
    omega
  · rw [fixedpt_div_eq W F _ _ hW (by omega) (min_inRange W) hnS (by omega), hq,
      wrap_two_pow_pred W hW]

/-- C19 at `W = 32`, `F = 8`, `a = -2^31` and `b = 256` (1.0): the quotient is
`-2^31`, which fits. -/
theorem C19_div_no_overflow_witness :
    8 + 1 < 32 ∧ InRange 32 (-2147483648) ∧ InRange 32 256 ∧ (2 : Int) ^ 8 ≤ |256|
    ∧ fixedpt_div 32 8 (-2147483648) 256 = some (Int.tdiv (-2147483648 * 2 ^ 8) 256)
    ∧ fixedpt_div 32 8 (-2147483648) 256 = some (-2147483648)
    ∧ fixedpt_div 32 8 (-(2 ^ (32 - 1))) (-FIXEDPT_ONE 32 8) = some (-(2 ^ (32 - 1))) :=
  ⟨by decide, by decide, by decide, by norm_num,
    ((C19_div_no_overflow 32 8 (-2147483648) 256 (by decide) (by decide) (by decide)
      (by norm_num)).1 (by decide)).2.1,
    by decide,
    (C19_div_no_overflow 32 8 (-2147483648) 256 (by decide) (by decide) (by decide)
      (by norm_num)).2.2.2⟩

end Fixedptc
